import Mathlib

/-!
# Verification of the Playback Coverage & Quiz-Gating Engine

Shallow embedding of the viewer-side engine in `src/frontend/dashboard.js`
(coverage tracking, seek guard, gate scheduling, grading, submission),
with theorems checking the natural-language specification against it.

Modelling conventions:
* JS numbers are modelled as `ℚ` (the engine only does field arithmetic,
  comparisons, `min`/`max`, and `Math.round`).
* JS strings (item ids, answer ids) are modelled as `Str := List Char`;
  JS truthiness of a string is `≠ []`.
* `Infinity` (the return of `nextGateTimeAfter` when no gate remains) is
  modelled by `⊤ : WithTop ℚ`.
* The `answered` `Map` is an association list with JS `Map.set` semantics.
-/

namespace VideoMcq

/-- JS strings, modelled as lists of characters. -/
abbrev Str := List Char

/-- The closed set of item type tags (the source lowercases the type string;
`fr`, `free` and `free_response` all denote the free-response kind). -/
inductive ItemType where
  | mcq
  | checkbox
  | fib
  | fr
  | poll
  | pause
  deriving DecidableEq

/-- A quiz item (`quiz.items[i]` in the source).  `t` is the trigger time in
seconds (`Number(it.t || 0)`), `correct` the correct choice-id list, `accept`
the accepted fill-in strings. -/
structure Item where
  id : Str
  type : ItemType
  t : ℚ
  correct : List Str
  accept : List Str
  caseSensitive : Bool
  deriving DecidableEq

/-- Quiz configuration fields consumed by the engine.  `endAt = none` models
a missing or non-numeric `quiz.endAt` (for which `Number(quiz?.endAt)` is not
finite). -/
structure Quiz where
  items : List Item
  endAt : Option ℚ
  requireIdentity : Bool
  requireWatchToEnd : Bool
  requireContinue : Bool
  reviewOnRewatch : Bool
  feedbackDelaySeconds : ℚ
  deriving DecidableEq

/-- A value stored in the `answered` map: either a normalized viewer response
(`normalizeAnswer` / the identity entry), the `{ kind: 'pause', cont: true }`
record written by `handleContinue`, or the reserved `__meta` statistics
entry. -/
inductive Answer where
  | resp (kind : Str) (selected : List Str) (text : Str)
  | pauseCont
  | meta (watchSeconds : ℚ) (watchPercent : ℚ)
  deriving DecidableEq

/-- Dynamic access `ans.kind` (the `pauseCont` record carries kind `'pause'`). -/
def Answer.kind : Answer → Str
  | .resp k _ _ => k
  | .pauseCont => "pause".toList
  | .meta _ _ => "__meta".toList

/-- Dynamic access `ans.selected || []`. -/
def Answer.selected : Answer → List Str
  | .resp _ s _ => s
  | _ => []

/-- Dynamic access `ans.text || ''`. -/
def Answer.text : Answer → Str
  | .resp _ _ t => t
  | _ => []

/-- The `answered` JS `Map`, as an association list (earliest insertion
first; `set` overwrites in place, as JS `Map.set` does). -/
abbrev Answered := List (Str × Answer)

/-- `answered.has(k)`. -/
def hasKey (m : Answered) (k : Str) : Bool :=
  m.any fun p => p.1 = k

/-- `answered.get(k)` (`none` = `undefined`). -/
def getKey : Answered → Str → Option Answer
  | [], _ => none
  | p :: rest, k => if p.1 = k then some p.2 else getKey rest k

/-- `answered.set(k, v)`: overwrite the existing entry or append. -/
def setKey : Answered → Str → Answer → Answered
  | [], k, v => [(k, v)]
  | p :: rest, k, v => if p.1 = k then (k, v) :: rest else p :: setKey rest k v

/-- `const ID_KEY = '__viewer'` (reserved key for the identity overlay). -/
def idKey : Str := "__viewer".toList

/-- The reserved `'__meta'` key of the watch-statistics entry. -/
def metaKey : Str := "__meta".toList

/-! ## Coverage tracker -/

/-- The 0.25-second merge tolerance of `addSegment`. -/
def tol : ℚ := 1/4

/-- Ordering of segments by start time (the comparator
`(x, y) => x[0] - y[0]` of `segments.sort`). -/
def leFst (s t : ℚ × ℚ) : Prop := s.1 ≤ t.1

instance : DecidableRel leFst := fun s t => inferInstanceAs (Decidable (s.1 ≤ t.1))

instance : IsTotal (ℚ × ℚ) leFst := ⟨fun s t => le_total s.1 t.1⟩

instance : IsTrans (ℚ × ℚ) leFst := ⟨fun _ _ _ h h' => le_trans h h'⟩

/-- The in-place merge pass of `addSegment`: on a start-sorted list, fuse a
segment into its predecessor whenever its start is within `tol` of the
predecessor's end (`if (s[0] <= last[1] + tol) last[1] = max(last[1], s[1])`). -/
def mergeSegs : List (ℚ × ℚ) → List (ℚ × ℚ)
  | [] => []
  | [s] => [s]
  | s :: t :: rest =>
    if t.1 ≤ s.2 + tol then mergeSegs ((s.1, max s.2 t.2) :: rest)
    else s :: mergeSegs (t :: rest)
termination_by l => l.length
decreasing_by all_goals simp

/-- `addSegment(a, b)`: no-op unless `b > a`; otherwise push `[a, b]`, sort by
start, and re-merge with tolerance `tol`. -/
def addSegment (a b : ℚ) (segs : List (ℚ × ℚ)) : List (ℚ × ℚ) :=
  if b ≤ a then segs
  else mergeSegs (List.insertionSort leFst (segs ++ [(a, b)]))

/-- The coverage-tracker state: closed segments, whether a segment is open
(`watching`), and its start (`segStart`). -/
structure CoverageState where
  segments : List (ℚ × ℚ)
  watching : Bool
  segStart : ℚ
  deriving DecidableEq

/-- `startWatch(at)`. -/
def startWatch (cs : CoverageState) (at' : ℚ) : CoverageState :=
  if cs.watching then cs else ⟨cs.segments, true, at'⟩

/-- `stopWatch(at)`: close the open segment (idempotent when not watching). -/
def stopWatch (cs : CoverageState) (at' : ℚ) : CoverageState :=
  if cs.watching then ⟨addSegment cs.segStart at' cs.segments, false, cs.segStart⟩ else cs

/-- The loop `for (const [a, b] of segments) total += Math.max(0, b - a)`. -/
def segTotal (segs : List (ℚ × ℚ)) : ℚ :=
  segs.foldl (fun acc s => acc + max 0 (s.2 - s.1)) 0

/-- `watchedSeconds(now, dur)`: closed-segment mass, plus the open segment's
elapsed time while watching, clamped to `dur` when `dur` is truthy. -/
def watchedSeconds (cs : CoverageState) (now dur : ℚ) : ℚ :=
  let total := segTotal cs.segments
  let total := if cs.watching then total + max 0 (now - cs.segStart) else total
  if dur ≠ 0 then min total dur else total

/-- `effectiveEnd(dur)`: `min(endAt, dur)` when `endAt` is a finite positive
number and `dur > 0`, else `dur` (`dur || 0` equals `dur` on rationals). -/
def effectiveEnd (endAt : Option ℚ) (dur : ℚ) : ℚ :=
  match endAt with
  | some e => if 0 < e ∧ 0 < dur then min e dur else dur
  | none => dur

/-- `watchedPercent(now, dur)`: guarded division by `effectiveEnd`, with the
"close enough" snap to 100 when the uncovered remainder is at most 1 second
or the raw percentage is at least 97. -/
def watchedPercent (endAt : Option ℚ) (cs : CoverageState) (now dur : ℚ) : ℚ :=
  let denom := effectiveEnd endAt dur
  if denom ≤ 0 then 0
  else
    let sec := watchedSeconds cs now denom
    let pct := sec / denom * 100
    if denom - sec ≤ 1 ∨ 97 ≤ pct then 100
    else max 0 (min 100 pct)

/-- The percentage rule exactly as the specification words it (claim C1):
raw ratio against the effective end, clamped to `[0, 100]`, snapping to 100
when the remainder is at most 1 second or the raw percentage reaches 97. -/
def specWatchedPercent (endAt : Option ℚ) (cs : CoverageState) (now dur : ℚ) : ℚ :=
  let eEnd := effectiveEnd endAt dur
  let sec := watchedSeconds cs now eEnd
  let raw := sec / eEnd * 100
  if eEnd - sec ≤ 1 ∨ 97 ≤ raw then 100
  else max 0 (min 100 raw)

/-! ## String ordering (the default lexicographic comparison of `Array.sort`) -/

/-- Lexicographic strict comparison of JS strings (default `sort` order). -/
def strLtB : Str → Str → Bool
  | [], [] => false
  | [], _ :: _ => true
  | _ :: _, [] => false
  | a :: x, b :: y => if a < b then true else if b < a then false else strLtB x y

/-- The non-strict order used to sort id lists. -/
def leStr (s t : Str) : Prop := strLtB t s = false

instance : DecidableRel leStr := fun s t => inferInstanceAs (Decidable (strLtB t s = false))

/-- Sorting a list of id strings, as `[...a].sort()` does. -/
def sortStrs (l : List Str) : List Str := List.insertionSort leStr l

/-- `.join('|')`. -/
def joinBar : List Str → Str
  | [] => []
  | [s] => s
  | s :: rest => s ++ '|' :: joinBar rest

/-- `arraysEq(a, b)` on two id arrays: equal lengths and equal
sorted-and-`'|'`-joined strings. -/
def arraysEq (a b : List Str) : Bool :=
  decide (a.length = b.length) &&
    decide (joinBar (sortStrs a) = joinBar (sortStrs b))

/-! ## Grading engine -/

/-- `const SCORABLE = new Set(['mcq', 'checkbox', 'fib'])`. -/
def SCORABLE (t : ItemType) : Bool :=
  match t with
  | .mcq => true
  | .checkbox => true
  | .fib => true
  | _ => false

/-- The result record of `gradeItem`. -/
structure Grade where
  points : ℚ
  max : ℚ
  correct : Bool
  deriving DecidableEq

/-- `String.prototype.trim()`. -/
def trimStr (s : Str) : Str :=
  ((s.dropWhile Char.isWhitespace).reverse.dropWhile Char.isWhitespace).reverse

/-- `String.prototype.toLowerCase()` (idealized per character). -/
def lowerStr (s : Str) : Str := s.map Char.toLower

/-- `gradeItem(item, ans)`: pure scoring of one item against one answer. -/
def gradeItem (item : Item) (ans : Answer) : Grade :=
  if !SCORABLE item.type then ⟨0, 0, true⟩
  else match item.type with
  | .mcq =>
    let ok := arraysEq ans.selected item.correct
    ⟨if ok then 1 else 0, 1, ok⟩
  | .checkbox =>
    let corr := item.correct.toFinset
    let sel := ans.selected.toFinset
    let correctSel := (sel ∩ corr).card
    let incorrectSel := (sel \ corr).card
    let pts : ℚ :=
      if correctSel = corr.card ∧ incorrectSel = 0 ∧ 0 < corr.card then 1
      else if 0 < correctSel then 1/2
      else 0
    ⟨pts, 1, decide (pts = 1)⟩
  | .fib =>
    let norm := fun s => if item.caseSensitive then s else trimStr (lowerStr s)
    let user := trimStr ans.text
    let ok := !item.accept.isEmpty && decide (norm user ∈ item.accept.map norm)
    ⟨if ok then 1 else 0, 1, ok⟩
  | _ => ⟨0, 0, true⟩

/-- `Math.round(x)` = `⌊x + 0.5⌋` (round half toward positive infinity). -/
def jsRound (x : ℚ) : ℚ := (⌊x + 1/2⌋ : ℤ)

/-- The totals record of `computeTotals`. -/
structure Totals where
  pts : ℚ
  max : ℚ
  pct : ℚ
  correct : ℕ
  deriving DecidableEq

/-- One step of the `computeTotals` loop: a scorable item adds 1 to the
denominator, its grade (when answered) to the points, and 1 to the
full-credit count when it earned the whole point. -/
def totalsAcc (answered : Answered) (acc : ℚ × ℚ × ℕ) (it : Item) : ℚ × ℚ × ℕ :=
  if !SCORABLE it.type then acc
  else
    let acc := (acc.1, acc.2.1 + 1, acc.2.2)
    match getKey answered it.id with
    | none => acc
    | some ans =>
      let g := gradeItem it ans
      (acc.1 + g.points, acc.2.1, if g.points = 1 then acc.2.2 + 1 else acc.2.2)

/-- `computeTotals()`: fold over the quiz items, then the two-decimal
percentage `Math.round(pts / max * 10000) / 100` (0 when `max` is 0). -/
def computeTotals (q : Quiz) (answered : Answered) : Totals :=
  let r := q.items.foldl (totalsAcc answered) (0, 0, 0)
  ⟨r.1, r.2.1, if r.2.1 ≠ 0 then jsRound (r.1 / r.2.1 * 10000) / 100 else 0, r.2.2⟩

/-! ## Gate scheduler -/

/-- `nextGateTimeAfter(now)`: fold over the items; an answered item is
skipped only when not reviewing; an eligible trigger time `t ≥ now` lowers
the running best.  `⊤` models `Infinity`. -/
def nextGateTimeAfter (q : Quiz) (answered : Answered) (reviewMode : Bool) (now : ℚ) :
    WithTop ℚ :=
  let reviewing := q.reviewOnRewatch && reviewMode
  q.items.foldl
    (fun best it =>
      if !reviewing && hasKey answered it.id then best
      else if now ≤ it.t ∧ (it.t : WithTop ℚ) < best then (it.t : WithTop ℚ) else best)
    ⊤

/-- The gate-time rule exactly as the specification words it (claim C3):
minimum trigger over items with `t ≥ now` that are unanswered or, in review
mode with `reviewOnRewatch`, not yet marked reviewed this pass. -/
def specNextGateTime (q : Quiz) (answered : Answered) (reviewMode : Bool)
    (reviewedThisPass : List Str) (now : ℚ) : WithTop ℚ :=
  ((q.items.filter fun it =>
      decide (now ≤ it.t) &&
        (!hasKey answered it.id ||
          (q.reviewOnRewatch && reviewMode && !decide (it.id ∈ reviewedThisPass)))).map
    Item.t).minimum

/-- The recursion of `maybeTrigger`: scan the items in order; a due
unanswered item opens plainly; a due answered item opens read-only in review
mode when not yet reviewed this pass (and is marked reviewed); otherwise the
scan continues.  Returns the opened item (with its review flag) and the
updated `reviewedThisPass`. -/
def maybeTriggerGo (reviewing : Bool) (answered : Answered) (now : ℚ) :
    List Item → List Str → Option (Item × Bool) × List Str
  | [], rp => (none, rp)
  | it :: rest, rp =>
    if it.t ≤ now then
      if !hasKey answered it.id then (some (it, false), rp)
      else if reviewing && !decide (it.id ∈ rp) then (some (it, true), List.insert it.id rp)
      else maybeTriggerGo reviewing answered now rest rp
    else maybeTriggerGo reviewing answered now rest rp

/-- `maybeTrigger(now)`. -/
def maybeTrigger (q : Quiz) (answered : Answered) (reviewMode : Bool) (rp : List Str)
    (now : ℚ) : Option (Item × Bool) × List Str :=
  maybeTriggerGo (q.reviewOnRewatch && reviewMode) answered now q.items rp

/-- `handleContinue()`: a pause item without a stored answer is recorded as
`{ kind: 'pause', cont: true }`, and `markReviewed` adds a truthy item id to
`reviewedThisPass`. -/
def handleContinue (cur : Option Item) (answered : Answered) (rp : List Str) :
    Answered × List Str :=
  match cur with
  | none => (answered, rp)
  | some it =>
    let answered :=
      if it.type = .pause ∧ hasKey answered it.id = false
      then setKey answered it.id .pauseCont else answered
    let rp := if it.id ≠ [] then List.insert it.id rp else rp
    (answered, rp)

/-! ## Submission protocol -/

/-- The outcome of the `fetch` in `submitAttemptNow`: HTTP success, the 409
duplicate-conflict status, or any failure (a rejected fetch or any other
non-ok status — both land in the same `catch`). -/
inductive SubmitResp where
  | ok
  | conflict409
  | fail
  deriving DecidableEq

/-- What the submission dispatch did, as observed by the viewer. -/
inductive SubmitOutcome where
  | noDispatch
  | thanks
  | retry
  deriving DecidableEq

/-- The submission guard flags. -/
structure SubState where
  submitting : Bool
  submittedOnce : Bool
  deriving DecidableEq

/-- `Math.round(x * 100) / 100`. -/
def round2 (x : ℚ) : ℚ := jsRound (x * 100) / 100

/-- `submitAttemptNow(viewerText)`: guard on the flags, record the identity
and `__meta` entries, post, and settle the flags according to the response. -/
def submitAttemptNow (q : Quiz) (cs : CoverageState) (sub : SubState) (answered : Answered)
    (viewer : Str) (now dur : ℚ) (resp : SubmitResp) :
    SubState × Answered × SubmitOutcome :=
  if sub.submitting || sub.submittedOnce then (sub, answered, .noDispatch)
  else
    let answered := setKey answered idKey (.resp "fr".toList [] viewer)
    let wSecs := watchedSeconds cs now dur
    let wPct := watchedPercent q.endAt cs now dur
    let answered := setKey answered metaKey (.meta (round2 wSecs) (round2 wPct))
    match resp with
    | .ok => (⟨true, true⟩, answered, .thanks)
    | .conflict409 => (⟨true, true⟩, answered, .thanks)
    | .fail => (⟨false, sub.submittedOnce⟩, answered, .retry)

/-! ## The sampling tick -/

/-- The mutable engine state read and written by `tick`. -/
structure EngState where
  cs : CoverageState
  overlayOpen : Bool
  currentItem : Option Item
  watchedToEnd : Bool
  answered : Answered
  reviewedThisPass : List Str
  lastNow : ℚ
  reviewMode : Bool
  peakTime : ℚ
  reviewExitTime : ℚ
  warnedSeekOnce : Bool
  sub : SubState
  deriving DecidableEq

/-- The externally visible effect of one tick: nothing, the one-time
corrective rewind, the forced ceiling seek, an item overlay open, or the
identity overlay open. -/
inductive TickAction where
  | none
  | seekBounce (target : ℚ)
  | ceilingSeek (target : ℚ)
  | openItem (it : Item) (review : Bool)
  | openIdentity
  deriving DecidableEq

/-- The part of `tick()` after the one-time seek guard: review-mode entry
and exit, the hard ceiling, `maybeTrigger`, and the coverage-completion
check.  `cs` and `peakTime` are the values already updated by the head of
the tick. -/
def tickMain (q : Quiz) (st : EngState) (cs : CoverageState) (peakTime : ℚ)
    (now dur : ℚ) : EngState × TickAction :=
    let rmEnter : Bool × List Str × ℚ :=
      if q.reviewOnRewatch = true ∧ now + 3/4 < st.lastNow then (true, [], peakTime)
      else (st.reviewMode, st.reviewedThisPass, st.reviewExitTime)
    let reviewExitTime := rmEnter.2.2
    let reviewMode := if rmEnter.1 = true ∧ reviewExitTime - 1/10 ≤ now then false
      else rmEnter.1
    let rp := rmEnter.2.1
    let cap := nextGateTimeAfter q st.answered reviewMode st.lastNow
    if cap + ((2/5 : ℚ) : WithTop ℚ) < (now : WithTop ℚ) then
      ({ st with
          cs := cs,
          peakTime := peakTime,
          reviewMode := reviewMode,
          reviewedThisPass := rp,
          reviewExitTime := reviewExitTime },
       .ceilingSeek (max 0 (cap.untop' 0 - 1/20)))
    else
      let trig := if st.overlayOpen then ((none : Option (Item × Bool)), rp)
        else maybeTrigger q st.answered reviewMode rp now
      match trig.1 with
      | some (it, rev) =>
        ({ st with
            cs := stopWatch cs now,
            overlayOpen := true,
            currentItem := some it,
            peakTime := peakTime,
            reviewMode := reviewMode,
            reviewedThisPass := trig.2,
            reviewExitTime := reviewExitTime }, .openItem it rev)
      | none =>
        let effEnd := effectiveEnd q.endAt dur
        let secCovered := watchedSeconds cs now effEnd
        if effEnd ≠ 0 ∧ st.watchedToEnd = false ∧
            (effEnd - secCovered ≤ 1 ∨ 97/100 ≤ secCovered / effEnd) then
          if q.requireIdentity = true ∧ hasKey st.answered idKey = false ∧
              st.overlayOpen = false ∧ st.sub.submitting = false ∧
              st.sub.submittedOnce = false then
            ({ st with
                cs := stopWatch cs now,
                watchedToEnd := true,
                overlayOpen := true,
                peakTime := peakTime,
                reviewMode := reviewMode,
                reviewedThisPass := rp,
                reviewExitTime := reviewExitTime }, .openIdentity)
          else
            ({ st with
                cs := stopWatch cs now,
                watchedToEnd := true,
                lastNow := now,
                peakTime := peakTime,
                reviewMode := reviewMode,
                reviewedThisPass := rp,
                reviewExitTime := reviewExitTime }, .none)
        else
          ({ st with
              cs := cs,
              lastNow := now,
              peakTime := peakTime,
              reviewMode := reviewMode,
              reviewedThisPass := rp,
              reviewExitTime := reviewExitTime }, .none)

/-- One iteration of the 250 ms sampling loop (`tick()`), as a pure state
transition.  Early `return`s of the source surface as the non-`none`
actions; only the final fall-through of `tickMain` updates `lastNow`. -/
def tick (q : Quiz) (st : EngState) (now dur : ℚ) (isPlaying : Bool) :
    EngState × TickAction :=
  let cs :=
    if isPlaying = true ∧ st.overlayOpen = false then
      let cs := if !st.cs.watching then startWatch st.cs now else st.cs
      if st.lastNow + 5/4 < now ∨ now + 3/4 < st.lastNow then
        startWatch (stopWatch cs st.lastNow) now
      else cs
    else stopWatch st.cs now
  let peakTime := if st.peakTime < now then now else st.peakTime
  if st.warnedSeekOnce = false ∧ st.lastNow + 2 < now ∧ st.overlayOpen = false then
    ({ st with cs := cs, peakTime := peakTime, warnedSeekOnce := true },
     .seekBounce (max 0 st.lastNow))
  else tickMain q st cs peakTime now dur

/-! ## Theorems -/

/-- C1: for every coverage state, `now` and `duration` with a positive
effective end, `watchedPercent` is the watched-seconds-over-effective-end
ratio times 100 clamped to `[0, 100]`, except that it snaps to exactly 100
when the uncovered remainder is at most 1 second or the raw percentage is at
least 97; in particular with `endAt = 30` on a 60-second video, at
`now = 29` with coverage `[0, 29]` it reports 100. -/
theorem c1_watchedPercent_close_enough :
    (∀ (endAt : Option ℚ) (cs : CoverageState) (now dur : ℚ),
        0 < effectiveEnd endAt dur →
        watchedPercent endAt cs now dur = specWatchedPercent endAt cs now dur) ∧
      watchedPercent (some 30) ⟨[(0, 29)], false, 0⟩ 29 60 = 100 := by
  constructor
  · intro endAt cs now dur h
    simp only [watchedPercent, specWatchedPercent, if_neg (not_le.mpr h)]
  · norm_num [watchedPercent, effectiveEnd, watchedSeconds, segTotal]

/-- Witness for C1: the `endAt = 30` scenario instantiates the general
close-enough rule, and the spec-side formula evaluates to 100 there. -/
theorem c1_witness :
    watchedPercent (some 30) ⟨[(0, 29)], false, 0⟩ 29 60 =
      specWatchedPercent (some 30) ⟨[(0, 29)], false, 0⟩ 29 60 :=
  c1_watchedPercent_close_enough.1 (some 30) ⟨[(0, 29)], false, 0⟩ 29 60
    (by norm_num [effectiveEnd])

/-- Well-formedness of a segment: positive length. -/
def segOk (s : ℚ × ℚ) : Prop := s.1 < s.2

/-- Two segments separated by more than the merge tolerance. -/
def gapRel (s t : ℚ × ℚ) : Prop := s.2 + tol < t.1

/-- The merge pass keeps the head's start and can only extend its end. -/
theorem mergeSegs_head (l : List (ℚ × ℚ)) (s : ℚ × ℚ) :
    ∃ e tl, mergeSegs (s :: l) = (s.1, e) :: tl ∧ s.2 ≤ e := by
  induction l generalizing s with
  | nil => exact ⟨s.2, [], by simp [mergeSegs], le_refl _⟩
  | cons t rest ih =>
    by_cases h : t.1 ≤ s.2 + tol
    · obtain ⟨e, tl, heq, hle⟩ := ih (s.1, max s.2 t.2)
      refine ⟨e, tl, ?_, le_trans (le_max_left _ _) hle⟩
      rw [show mergeSegs (s :: t :: rest) = mergeSegs ((s.1, max s.2 t.2) :: rest) by
        simp only [mergeSegs, if_pos h]]
      exact heq
    · exact ⟨s.2, mergeSegs (t :: rest), by simp only [mergeSegs, if_neg h], le_refl _⟩

/-- On a start-sorted list of well-formed segments, the merge pass yields
well-formed segments whose consecutive gaps exceed the tolerance. -/
theorem mergeSegs_wf_chain (n : ℕ) :
    ∀ l : List (ℚ × ℚ), l.length ≤ n → (∀ p ∈ l, segOk p) → l.Pairwise leFst →
      (∀ p ∈ mergeSegs l, segOk p) ∧ (mergeSegs l).Chain' gapRel := by
  induction n with
  | zero =>
    intro l hl _ _
    rw [List.length_eq_zero.mp (Nat.le_zero.mp hl)]
    simp [mergeSegs]
  | succ n ih =>
    intro l hl hwf hs
    match l with
    | [] => simp [mergeSegs]
    | [s] =>
      refine ⟨fun p hp => ?_, ?_⟩
      · simp only [mergeSegs] at hp
        exact hwf p (by simpa using hp)
      · simp only [mergeSegs]
        exact List.chain'_singleton s
    | s :: t :: rest =>
      by_cases h : t.1 ≤ s.2 + tol
      · rw [show mergeSegs (s :: t :: rest) = mergeSegs ((s.1, max s.2 t.2) :: rest) by
          simp only [mergeSegs, if_pos h]]
        apply ih
        · simpa using Nat.le_of_succ_le_succ (by simpa using hl)
        · intro p hp
          rcases List.mem_cons.mp hp with rfl | hp'
          · exact lt_of_lt_of_le (hwf s (by simp)) (le_max_left _ _)
          · exact hwf p (by simp [hp'])
        · refine List.Pairwise.cons ?_ ((List.pairwise_cons.mp
            ((List.pairwise_cons.mp hs).2)).2)
          intro r hr
          exact (List.pairwise_cons.mp hs).1 r (by simp [hr])
      · rw [show mergeSegs (s :: t :: rest) = s :: mergeSegs (t :: rest) by
          simp only [mergeSegs, if_neg h]]
        obtain ⟨hwf', hch⟩ := ih (t :: rest)
          (by simpa using Nat.le_of_succ_le_succ (by simpa using hl))
          (fun p hp => hwf p (by simp [List.mem_cons.mp hp]))
          ((List.pairwise_cons.mp hs).2)
        obtain ⟨e, tl, heq, _⟩ := mergeSegs_head rest t
        refine ⟨fun p hp => ?_, ?_⟩
        · rcases List.mem_cons.mp hp with rfl | hp'
          · exact hwf p (by simp)
          · exact hwf' p hp'
        · rw [heq] at hch ⊢
          exact List.chain'_cons.mpr ⟨not_le.mp h, hch⟩

/-- For well-formed segments, consecutive beyond-tolerance gaps imply the
pairwise property. -/
theorem chain_gap_pairwise (l : List (ℚ × ℚ)) (hwf : ∀ p ∈ l, segOk p)
    (hch : l.Chain' gapRel) : l.Pairwise gapRel := by
  induction l with
  | nil => exact List.Pairwise.nil
  | cons a l ih =>
    have hp := ih (fun p hp => hwf p (List.mem_cons_of_mem _ hp)) hch.tail
    refine List.Pairwise.cons ?_ hp
    intro b hb
    cases l with
    | nil => cases hb
    | cons c l'' =>
      have hac : gapRel a c := (List.chain'_cons.mp hch).1
      rcases List.mem_cons.mp hb with rfl | hb'
      · exact hac
      · have hcb : gapRel c b := List.rel_of_pairwise_cons hp hb'
        have hc2 : segOk c := hwf c (by simp)
        unfold gapRel tol segOk at *
        linarith

/-- `addSegment` preserves well-formedness and the beyond-tolerance pairwise
invariant. -/
theorem addSegment_inv (a b : ℚ) (segs : List (ℚ × ℚ)) (hwf : ∀ p ∈ segs, segOk p)
    (hpair : segs.Pairwise gapRel) :
    (∀ p ∈ addSegment a b segs, segOk p) ∧ (addSegment a b segs).Pairwise gapRel := by
  unfold addSegment
  by_cases hba : b ≤ a
  · rw [if_pos hba]
    exact ⟨hwf, hpair⟩
  · rw [if_neg hba]
    have hsorted : (List.insertionSort leFst (segs ++ [(a, b)])).Pairwise leFst :=
      List.sorted_insertionSort leFst _
    have hwf' : ∀ p ∈ List.insertionSort leFst (segs ++ [(a, b)]), segOk p := by
      intro p hp
      have hp' := (List.perm_insertionSort leFst (segs ++ [(a, b)])).mem_iff.mp hp
      rcases List.mem_append.mp hp' with h1 | h2
      · exact hwf p h1
      · have : p = (a, b) := by simpa using h2
        subst this
        exact not_le.mp hba
    obtain ⟨hwf2, hch⟩ := mergeSegs_wf_chain _ _ le_rfl hwf' hsorted
    exact ⟨hwf2, chain_gap_pairwise _ hwf2 hch⟩

/-- A sequence of `addSegment` calls starting from the empty collection. -/
def applySegmentOps (ops : List (ℚ × ℚ)) : List (ℚ × ℚ) :=
  ops.foldl (fun segs p => addSegment p.1 p.2 segs) []

/-- The fold of `addSegment` calls preserves the collection invariant. -/
theorem foldl_addSegment_inv (ops : List (ℚ × ℚ)) :
    ∀ segs, (∀ p ∈ segs, segOk p) → segs.Pairwise gapRel →
      (∀ p ∈ ops.foldl (fun s p => addSegment p.1 p.2 s) segs, segOk p) ∧
        (ops.foldl (fun s p => addSegment p.1 p.2 s) segs).Pairwise gapRel := by
  induction ops with
  | nil => exact fun segs h1 h2 => ⟨h1, h2⟩
  | cons op rest ih =>
    intro segs h1 h2
    simp only [List.foldl_cons]
    obtain ⟨h1', h2'⟩ := addSegment_inv op.1 op.2 segs h1 h2
    exact ih _ h1' h2'

/-- C6: after every sequence of `addSegment(a, b)` calls the collection is
sorted by start and pairwise separated by more than the 0.25-second merge
tolerance, and a call with `b ≤ a` leaves the collection unchanged. -/
theorem c6_addSegment_sorted_merged :
    (∀ ops : List (ℚ × ℚ),
        ((applySegmentOps ops).Pairwise fun s t => s.1 ≤ t.1) ∧
          (applySegmentOps ops).Pairwise gapRel) ∧
      ∀ (a b : ℚ) (segs : List (ℚ × ℚ)), b ≤ a → addSegment a b segs = segs := by
  constructor
  · intro ops
    obtain ⟨hwf, hpair⟩ := foldl_addSegment_inv ops [] (by simp) List.Pairwise.nil
    refine ⟨List.Pairwise.imp_of_mem ?_ hpair, hpair⟩
    intro s t hs _ hg
    have h1 := hwf s hs
    unfold gapRel tol at hg
    unfold segOk at h1
    linarith
  · intro a b segs hba
    unfold addSegment
    rw [if_pos hba]

/-- Witness for C6: a concrete run of two inserts satisfies the invariant,
and a degenerate call leaves a concrete collection unchanged. -/
theorem c6_witness :
    ((applySegmentOps [(0, 1), (2, 3)]).Pairwise fun s t => s.1 ≤ t.1) ∧
      addSegment 5 3 [(0, 1)] = [(0, 1)] :=
  ⟨(c6_addSegment_sorted_merged.1 [(0, 1), (2, 3)]).1,
    c6_addSegment_sorted_merged.2 5 3 [(0, 1)] (by norm_num)⟩

/-- C9: `watchedPercent` is total and returns 0 whenever the effective end
is zero or negative, regardless of the accumulated segments — the division
is guarded and never evaluated on a non-positive denominator. -/
theorem c9_watchedPercent_zero_denominator (endAt : Option ℚ) (cs : CoverageState)
    (now dur : ℚ) (h : effectiveEnd endAt dur ≤ 0) :
    watchedPercent endAt cs now dur = 0 := by
  simp only [watchedPercent, if_pos h]

/-- Witness for C9: a zero duration before metadata load, with segments
already accumulated and a watch open, still reports 0 percent. -/
theorem c9_witness : watchedPercent none ⟨[(0, 5)], true, 0⟩ 7 0 = 0 :=
  c9_watchedPercent_zero_denominator none ⟨[(0, 5)], true, 0⟩ 7 0
    (by norm_num [effectiveEnd])

/-- The gate-time rule the code actually implements (amended C3): in review
mode with `reviewOnRewatch`, every item with a due-or-later trigger counts,
whether or not it was already reviewed this pass. -/
def amendedNextGateTime (q : Quiz) (answered : Answered) (reviewMode : Bool) (now : ℚ) :
    WithTop ℚ :=
  ((q.items.filter fun it =>
      (q.reviewOnRewatch && reviewMode || !hasKey answered it.id) && decide (now ≤ it.t)).map
    Item.t).minimum

/-- One `nextGateTimeAfter` fold step is a conditional `min`. -/
theorem nextGate_step (reviewing : Bool) (answered : Answered) (now : ℚ)
    (best : WithTop ℚ) (it : Item) :
    (if !reviewing && hasKey answered it.id then best
     else if now ≤ it.t ∧ (it.t : WithTop ℚ) < best then (it.t : WithTop ℚ) else best) =
      if (reviewing || !hasKey answered it.id) && decide (now ≤ it.t) then
        min best (it.t : WithTop ℚ)
      else best := by
  by_cases hskip : (!reviewing && hasKey answered it.id) = true
  · have h' : reviewing = false ∧ hasKey answered it.id = true := by simpa using hskip
    rw [if_pos hskip, h'.1, h'.2]
    simp
  · rw [if_neg hskip]
    have hor : (reviewing || !hasKey answered it.id) = true := by
      rcases hb : reviewing with _ | _ <;> rcases hk : hasKey answered it.id with _ | _ <;>
        simp_all
    rw [hor, Bool.true_and]
    by_cases h2 : now ≤ it.t
    · rw [decide_eq_true h2, if_pos rfl]
      by_cases h3 : (it.t : WithTop ℚ) < best
      · rw [if_pos ⟨h2, h3⟩, min_eq_right h3.le]
      · rw [if_neg fun hc => h3 hc.2, min_eq_left (not_lt.mp h3)]
    · simp [h2]

/-- The `nextGateTimeAfter` fold computes the minimum of the eligible
trigger times below the accumulator. -/
theorem nextGate_foldl (reviewing : Bool) (answered : Answered) (now : ℚ)
    (items : List Item) :
    ∀ best : WithTop ℚ,
      items.foldl
        (fun best it =>
          if !reviewing && hasKey answered it.id then best
          else if now ≤ it.t ∧ (it.t : WithTop ℚ) < best then (it.t : WithTop ℚ) else best)
        best =
      min best
        (((items.filter fun it =>
            (reviewing || !hasKey answered it.id) && decide (now ≤ it.t)).map
          Item.t).minimum) := by
  induction items with
  | nil =>
    intro best
    simp only [List.foldl_nil, List.filter_nil, List.map_nil, List.minimum_nil]
    exact (min_eq_left le_top).symm
  | cons it rest ih =>
    intro best
    rw [List.foldl_cons, nextGate_step]
    simp only [List.filter_cons]
    by_cases hp : ((reviewing || !hasKey answered it.id) && decide (now ≤ it.t)) = true
    · rw [if_pos hp, if_pos hp, List.map_cons, List.minimum_cons, ih, min_assoc]
    · rw [if_neg hp, if_neg hp, ih]

/-- C3 (amended): `nextGateTimeAfter(now)` is the minimum trigger `t ≥ now`
over items that are unanswered or — when `reviewOnRewatch` holds and the
engine is in review mode — over all items regardless of `reviewedThisPass`;
`⊤` (Infinity) when none qualifies. -/
theorem c3_nextGateTimeAfter_minimum (q : Quiz) (answered : Answered) (reviewMode : Bool)
    (now : ℚ) :
    nextGateTimeAfter q answered reviewMode now =
      amendedNextGateTime q answered reviewMode now := by
  simp only [nextGateTimeAfter, amendedNextGateTime]
  rw [nextGate_foldl]
  exact min_eq_right le_top

/-- The item, quiz and answer map of the C3 counterexample: a single
answered item at `t = 5`, `reviewOnRewatch` on. -/
def c3Item : Item := ⟨['a'], .mcq, 5, [['x']], [], false⟩

/-- The C3 counterexample quiz. -/
def c3Quiz : Quiz := ⟨[c3Item], none, false, false, false, true, 0⟩

/-- The C3 counterexample answer map: the single item is answered. -/
def c3Answered : Answered := [(['a'], .resp "mcq".toList [['x']] [])]

/-- C3 counterexample: in review mode, with the only item answered and
already marked reviewed this pass, the claim's rule yields `⊤` (no gate),
but the code still returns `t = 5`: `nextGateTimeAfter` ignores
`reviewedThisPass`. -/
theorem c3_counterexample :
    nextGateTimeAfter c3Quiz c3Answered true 0 = ((5 : ℚ) : WithTop ℚ) ∧
      specNextGateTime c3Quiz c3Answered true [['a']] 0 = ⊤ ∧
      ((5 : ℚ) : WithTop ℚ) ≠ (⊤ : WithTop ℚ) := by
  refine ⟨?_, ?_, ?_⟩ <;> decide

/-- The `maybeTrigger` scan returns exactly the first due item that is
unanswered or (in review mode) unreviewed, and any answered item it returns
was returned under the review condition. -/
theorem maybeTriggerGo_spec (reviewing : Bool) (answered : Answered) (now : ℚ) :
    ∀ (items : List Item) (rp : List Str),
      (Option.map Prod.fst (maybeTriggerGo reviewing answered now items rp).1 =
        items.find? fun it =>
          decide (it.t ≤ now) &&
            (!hasKey answered it.id || (reviewing && !decide (it.id ∈ rp)))) ∧
      ∀ it rev, (maybeTriggerGo reviewing answered now items rp).1 = some (it, rev) →
        hasKey answered it.id = true → reviewing = true ∧ it.id ∉ rp := by
  intro items
  induction items with
  | nil =>
    intro rp
    exact ⟨by simp [maybeTriggerGo], fun it rev h => by simp [maybeTriggerGo] at h⟩
  | cons j rest ih =>
    intro rp
    by_cases hdue : j.t ≤ now
    · by_cases hans : hasKey answered j.id = true
      · by_cases hrev : (reviewing && !decide (j.id ∈ rp)) = true
        · have hgo : (maybeTriggerGo reviewing answered now (j :: rest) rp).1 =
              some (j, true) := by
            simp [maybeTriggerGo, hdue, hans, hrev]
          constructor
          · rw [hgo, List.find?_cons_of_pos _ (by simp [hdue, hans, hrev])]
            simp
          · intro it rev h _
            rw [hgo] at h
            have hji : j = it := congrArg Prod.fst (Option.some.inj h)
            rw [← hji]
            have h' : reviewing = true ∧ decide (j.id ∈ rp) = false := by simpa using hrev
            exact ⟨h'.1, by simpa using h'.2⟩
        · have hgo : maybeTriggerGo reviewing answered now (j :: rest) rp =
              maybeTriggerGo reviewing answered now rest rp := by
            simp [maybeTriggerGo, hdue, hans, hrev]
          constructor
          · rw [hgo, (ih rp).1, List.find?_cons_of_neg _ (by simp [hdue, hans, hrev])]
          · intro it rev h
            rw [hgo] at h
            exact (ih rp).2 it rev h
      · have hgo : (maybeTriggerGo reviewing answered now (j :: rest) rp).1 =
            some (j, false) := by
          simp [maybeTriggerGo, hdue, hans]
        constructor
        · rw [hgo, List.find?_cons_of_pos _ (by simp [hdue, hans])]
          simp
        · intro it rev h hk
          rw [hgo] at h
          have hji : j = it := congrArg Prod.fst (Option.some.inj h)
          rw [← hji] at hk
          exact absurd hk hans
    · have hgo : maybeTriggerGo reviewing answered now (j :: rest) rp =
          maybeTriggerGo reviewing answered now rest rp := by
        simp [maybeTriggerGo, hdue]
      constructor
      · rw [hgo, (ih rp).1, List.find?_cons_of_neg _ (by simp [hdue])]
      · intro it rev h
        rw [hgo] at h
        exact (ih rp).2 it rev h

/-- C5: `maybeTrigger(now)` opens (and returns) exactly the first item in
declared order whose trigger is due (`t ≤ now`) and that is unanswered or,
in review mode with `reviewOnRewatch`, not yet in `reviewedThisPass`; it
never re-opens an answered item outside that review condition. -/
theorem c5_maybeTrigger_first_due (q : Quiz) (answered : Answered) (rm : Bool)
    (rp : List Str) (now : ℚ) :
    (Option.map Prod.fst (maybeTrigger q answered rm rp now).1 =
      q.items.find? fun it =>
        decide (it.t ≤ now) &&
          (!hasKey answered it.id || ((q.reviewOnRewatch && rm) && !decide (it.id ∈ rp)))) ∧
      ∀ it rev, (maybeTrigger q answered rm rp now).1 = some (it, rev) →
        hasKey answered it.id = true → (q.reviewOnRewatch && rm) = true ∧ it.id ∉ rp :=
  maybeTriggerGo_spec (q.reviewOnRewatch && rm) answered now q.items rp

/-- First item of the C5 witness quiz: answered, due at `t = 3`. -/
def c5Item1 : Item := ⟨['a'], .mcq, 3, [['x']], [], false⟩

/-- Second item of the C5 witness quiz: unanswered, due at `t = 4`. -/
def c5Item2 : Item := ⟨['b'], .mcq, 4, [['y']], [], false⟩

/-- The C5 witness quiz (`reviewOnRewatch` on). -/
def c5Quiz : Quiz := ⟨[c5Item1, c5Item2], none, false, false, false, true, 0⟩

/-- The C5 witness answer map: only the first item is answered. -/
def c5Answered : Answered := [(['a'], .resp "mcq".toList [['x']] [])]

/-- Witness for C5: outside review mode the answered first item is skipped
and the second is the first due eligible item; in review mode the answered
first item is returned under the review condition. -/
theorem c5_witness :
    Option.map Prod.fst (maybeTrigger c5Quiz c5Answered false [] 10).1 = some c5Item2 ∧
      ((c5Quiz.reviewOnRewatch && true) = true ∧ c5Item1.id ∉ ([] : List Str)) := by
  constructor
  · rw [(c5_maybeTrigger_first_due c5Quiz c5Answered false [] 10).1]
    decide
  · exact (c5_maybeTrigger_first_due c5Quiz c5Answered true [] 10).2 c5Item1 true
      (by decide) (by decide)

/-- The checkbox three-tier rule as the specification words it (claim C7). -/
def specCheckboxPoints (corr sel : Finset Str) : ℚ :=
  if (sel ∩ corr).card = corr.card ∧ (sel \ corr).card = 0 ∧ 0 < corr.card then 1
  else if 0 < (sel ∩ corr).card then 1/2
  else 0

/-- The C7 witness checkbox item: three correct options `a`, `b`, `c`. -/
def c7Item : Item := ⟨"cb1".toList, .checkbox, 10, [['a'], ['b'], ['c']], [], false⟩

/-- A checkbox answer selecting the given option ids. -/
def c7Sel (sel : List Str) : Answer := .resp "checkbox".toList sel []

/-- C7: checkbox grading awards 1 point iff every correct option and no
wrong option is selected (and the correct set is nonempty), else 0.5 when at
least one correct option is selected, else 0; in particular with 3 correct
options, 2 correct + 1 wrong scores 0.5, exactly the 3 correct scores 1, and
a selection with no correct option scores 0. -/
theorem c7_checkbox_three_tier :
    (∀ (item : Item) (ans : Answer), item.type = .checkbox →
        (gradeItem item ans).points =
          specCheckboxPoints item.correct.toFinset ans.selected.toFinset) ∧
      (gradeItem c7Item (c7Sel [['a'], ['b'], ['d']])).points = 1/2 ∧
      (gradeItem c7Item (c7Sel [['a'], ['b'], ['c']])).points = 1 ∧
      (gradeItem c7Item (c7Sel [['d']])).points = 0 := by
  have hgen : ∀ (item : Item) (ans : Answer), item.type = .checkbox →
      (gradeItem item ans).points =
        specCheckboxPoints item.correct.toFinset ans.selected.toFinset := by
    intro item ans htype
    simp [gradeItem, htype, SCORABLE, specCheckboxPoints]
  refine ⟨hgen, ?_, ?_, ?_⟩
  · rw [hgen c7Item _ rfl]
    simp only [specCheckboxPoints]
    rw [if_neg (by decide), if_pos (by decide)]
  · rw [hgen c7Item _ rfl]
    simp only [specCheckboxPoints]
    rw [if_pos (by decide)]
  · rw [hgen c7Item _ rfl]
    simp only [specCheckboxPoints]
    rw [if_neg (by decide), if_neg (by decide)]

/-- Witness for C7: the general rule applied to the witness item agrees with
the spec formula on the 2-correct-plus-1-wrong selection. -/
theorem c7_witness :
    (gradeItem c7Item (c7Sel [['a'], ['b'], ['d']])).points =
      specCheckboxPoints c7Item.correct.toFinset (c7Sel [['a'], ['b'], ['d']]).selected.toFinset :=
  c7_checkbox_three_tier.1 c7Item (c7Sel [['a'], ['b'], ['d']]) rfl

/-- The strict string comparison is irreflexive. -/
theorem strLtB_irrefl : ∀ s : Str, strLtB s s = false := by
  intro s
  induction s with
  | nil => rfl
  | cons a x ih => simp [strLtB, ih]

/-- The strict string comparison is transitive. -/
theorem strLtB_trans : ∀ s t u : Str,
    strLtB s t = true → strLtB t u = true → strLtB s u = true := by
  intro s
  induction s with
  | nil =>
    intro t u hst htu
    cases t with
    | nil => simp [strLtB] at hst
    | cons b y =>
      cases u with
      | nil => simp [strLtB] at htu
      | cons c z => rfl
  | cons a x ih =>
    intro t u hst htu
    cases t with
    | nil => simp [strLtB] at hst
    | cons b y =>
      cases u with
      | nil => simp [strLtB] at htu
      | cons c z =>
        simp only [strLtB] at hst htu ⊢
        by_cases hab : a < b
        · by_cases hbc : b < c
          · rw [if_pos (lt_trans hab hbc)]
          · rw [if_neg hbc] at htu
            by_cases hcb : c < b
            · rw [if_pos hcb] at htu
              cases htu
            · have hbceq : b = c := le_antisymm (not_lt.mp hcb) (not_lt.mp hbc)
              rw [if_pos (hbceq ▸ hab)]
        · rw [if_neg hab] at hst
          by_cases hba : b < a
          · rw [if_pos hba] at hst
            cases hst
          · have habeq : a = b := le_antisymm (not_lt.mp hba) (not_lt.mp hab)
            rw [if_neg hba] at hst
            by_cases hbc : b < c
            · rw [if_pos (habeq ▸ hbc)]
            · rw [if_neg hbc] at htu
              by_cases hcb : c < b
              · rw [if_pos hcb] at htu
                cases htu
              · have hbceq : b = c := le_antisymm (not_lt.mp hcb) (not_lt.mp hbc)
                have hac : ¬ a < c := by rw [habeq, hbceq]; exact lt_irrefl c
                have hca : ¬ c < a := by rw [habeq, hbceq]; exact lt_irrefl c
                rw [if_neg hcb] at htu
                rw [if_neg hac, if_neg hca]
                exact ih y z hst htu

/-- Distinct strings compare strictly one way or the other. -/
theorem strLtB_conn : ∀ s t : Str, s ≠ t → strLtB s t = true ∨ strLtB t s = true := by
  intro s
  induction s with
  | nil =>
    intro t ht
    cases t with
    | nil => exact absurd rfl ht
    | cons b y => exact Or.inl rfl
  | cons a x ih =>
    intro t ht
    cases t with
    | nil => exact Or.inr rfl
    | cons b y =>
      by_cases hab : a < b
      · exact Or.inl (by simp [strLtB, hab])
      · by_cases hba : b < a
        · exact Or.inr (by simp [strLtB, hba])
        · have habeq : a = b := le_antisymm (not_lt.mp hba) (not_lt.mp hab)
          subst habeq
          have hxy : x ≠ y := fun hc => ht (by rw [hc])
          rcases ih y hxy with h | h
          · exact Or.inl (by simp [strLtB, lt_irrefl, h])
          · exact Or.inr (by simp [strLtB, lt_irrefl, h])

instance : IsTotal Str leStr := ⟨by
  intro s t
  unfold leStr
  by_cases h : strLtB t s = true
  · right
    by_contra hc
    have h2 : strLtB s t = true := by
      rcases hb : strLtB s t with _ | _
      · exact absurd hb hc
      · rfl
    have h3 := strLtB_trans t s t h h2
    rw [strLtB_irrefl] at h3
    cases h3
  · left
    rcases hb : strLtB t s with _ | _
    · rfl
    · exact absurd hb h⟩

instance : IsTrans Str leStr := ⟨by
  intro s t u hst htu
  unfold leStr at *
  by_contra hc
  have hus : strLtB u s = true := by
    rcases hb : strLtB u s with _ | _
    · exact absurd hb hc
    · rfl
  by_cases hut : u = t
  · rw [hut] at hus
    rw [hus] at hst
    cases hst
  · rcases strLtB_conn u t hut with h | h
    · rw [h] at htu
      cases htu
    · have h2 := strLtB_trans t u s h hus
      rw [h2] at hst
      cases hst⟩

instance : IsAntisymm Str leStr := ⟨by
  intro s t hst hts
  by_contra hne
  unfold leStr at hst hts
  rcases strLtB_conn s t hne with h | h
  · rw [h] at hts
    cases hts
  · rw [h] at hst
    cases hst⟩

/-- Splitting on a separator character absent from both prefixes is
injective. -/
theorem append_sep_inj : ∀ x y u v : Str, '|' ∉ x → '|' ∉ y →
    x ++ '|' :: u = y ++ '|' :: v → x = y ∧ u = v := by
  intro x
  induction x with
  | nil =>
    intro y u v _ hy h
    cases y with
    | nil => simpa using h
    | cons b y' =>
      rw [List.nil_append, List.cons_append, List.cons.injEq] at h
      exact absurd (h.1 ▸ List.mem_cons_self b y') (fun hc => hy (h.1 ▸ hc))
  | cons a x' ih =>
    intro y u v hx hy h
    cases y with
    | nil =>
      rw [List.cons_append, List.nil_append, List.cons.injEq] at h
      exact absurd (h.1 ▸ List.mem_cons_self a x') (fun hc => hx (h.1 ▸ hc))
    | cons b y' =>
      rw [List.cons_append, List.cons_append, List.cons.injEq] at h
      obtain ⟨h1, h2⟩ := h
      obtain ⟨hxy, huv⟩ := ih y' u v (fun hm => hx (List.mem_cons_of_mem _ hm))
        (fun hm => hy (List.mem_cons_of_mem _ hm)) h2
      exact ⟨by rw [h1, hxy], huv⟩

/-- `'|'`-joining is injective on equal-length lists of separator-free
strings. -/
theorem joinBar_inj : ∀ l₁ l₂ : List Str, (∀ s ∈ l₁, '|' ∉ s) → (∀ s ∈ l₂, '|' ∉ s) →
    l₁.length = l₂.length → joinBar l₁ = joinBar l₂ → l₁ = l₂ := by
  intro l₁
  induction l₁ with
  | nil =>
    intro l₂ _ _ hlen _
    cases l₂ with
    | nil => rfl
    | cons t l₂' => simp at hlen
  | cons s l₁' ih =>
    intro l₂ h1 h2 hlen hj
    cases l₂ with
    | nil => simp at hlen
    | cons t l₂' =>
      cases l₁' with
      | nil =>
        cases l₂' with
        | nil =>
          simp only [joinBar] at hj
          rw [hj]
        | cons t' l₂'' => simp at hlen
      | cons s' l₁'' =>
        cases l₂' with
        | nil => simp at hlen
        | cons t' l₂'' =>
          simp only [joinBar] at hj
          obtain ⟨hst, hj'⟩ := append_sep_inj _ _ _ _ (h1 s (by simp)) (h2 t (by simp)) hj
          have heq := ih (t' :: l₂'') (fun r hr => h1 r (List.mem_cons_of_mem _ hr))
            (fun r hr => h2 r (List.mem_cons_of_mem _ hr)) (by simpa using hlen) hj'
          rw [hst, heq]

/-- On separator-free id lists, `arraysEq` decides multiset equality. -/
theorem arraysEq_iff_perm (a b : List Str) (ha : ∀ s ∈ a, '|' ∉ s)
    (hb : ∀ s ∈ b, '|' ∉ s) : arraysEq a b = true ↔ a.Perm b := by
  unfold arraysEq
  simp only [Bool.and_eq_true, decide_eq_true_eq]
  constructor
  · rintro ⟨hlen, hjoin⟩
    have hpa : (sortStrs a).Perm a := List.perm_insertionSort leStr a
    have hpb : (sortStrs b).Perm b := List.perm_insertionSort leStr b
    have hsa : ∀ s ∈ sortStrs a, '|' ∉ s := fun s hs => ha s (hpa.mem_iff.mp hs)
    have hsb : ∀ s ∈ sortStrs b, '|' ∉ s := fun s hs => hb s (hpb.mem_iff.mp hs)
    have hlen' : (sortStrs a).length = (sortStrs b).length := by
      rw [hpa.length_eq, hpb.length_eq]
      exact hlen
    have hsort : sortStrs a = sortStrs b := joinBar_inj _ _ hsa hsb hlen' hjoin
    refine hpa.symm.trans ?_
    rw [hsort]
    exact hpb
  · intro hab
    have hsort : sortStrs a = sortStrs b :=
      List.eq_of_perm_of_sorted
        ((List.perm_insertionSort leStr a).trans
          (hab.trans (List.perm_insertionSort leStr b).symm))
        (List.sorted_insertionSort leStr a) (List.sorted_insertionSort leStr b)
    exact ⟨hab.length_eq, by rw [hsort]⟩

/-- The C8 counterexample item: an mcq whose correct list repeats the same
id. -/
def c8Item : Item := ⟨"q1".toList, .mcq, 10, [['a'], ['a']], [], false⟩

/-- The C8 counterexample answer: the single choice `a` is selected. -/
def c8Ans : Answer := .resp "mcq".toList [['a']] []

/-- C8 counterexample: the selected ids equal the correct ids as sets, yet
grading awards 0 — `arraysEq` compares lengths, so list multiplicity
matters, not just the set. -/
theorem c8_counterexample :
    (gradeItem c8Item c8Ans).points = 0 ∧
      c8Ans.selected.toFinset = c8Item.correct.toFinset := by
  constructor
  · have hae : arraysEq c8Ans.selected c8Item.correct = false := by decide
    have hpts : (gradeItem c8Item c8Ans).points =
        if arraysEq c8Ans.selected c8Item.correct then 1 else 0 := by
      simp [gradeItem, show c8Item.type = .mcq from rfl, SCORABLE]
    rw [hpts, hae]
    simp
  · decide

/-- C8 (amended): for an mcq item whose ids are free of the `'|'` join
separator, grading awards 1 point iff the selected id list equals the
correct id list as a multiset (order irrelevant, multiplicity significant);
otherwise it awards 0. -/
theorem c8_mcq_exact_match (item : Item) (ans : Answer) (htype : item.type = .mcq)
    (hc : ∀ s ∈ item.correct, '|' ∉ s) (hs : ∀ s ∈ ans.selected, '|' ∉ s) :
    ((gradeItem item ans).points = 1 ↔
        (ans.selected : Multiset Str) = (item.correct : Multiset Str)) ∧
      ((gradeItem item ans).points = 1 ∨ (gradeItem item ans).points = 0) := by
  have hpts : (gradeItem item ans).points =
      if arraysEq ans.selected item.correct then 1 else 0 := by
    simp [gradeItem, htype, SCORABLE]
  by_cases hEq : arraysEq ans.selected item.correct = true
  · rw [hpts, if_pos hEq]
    exact ⟨iff_of_true rfl (Multiset.coe_eq_coe.mpr ((arraysEq_iff_perm _ _ hs hc).mp hEq)),
      Or.inl rfl⟩
  · rw [hpts, if_neg (by simpa using hEq)]
    refine ⟨iff_of_false (by norm_num) ?_, Or.inr rfl⟩
    intro hm
    exact hEq ((arraysEq_iff_perm _ _ hs hc).mpr (Multiset.coe_eq_coe.mp hm))

/-- A well-formed mcq item for the C8 witness. -/
def c8WItem : Item := ⟨"q2".toList, .mcq, 20, [['x']], [], false⟩

/-- Witness for C8 (amended): a well-formed mcq graded by the exact-match
rule. -/
theorem c8_witness :
    ((gradeItem c8WItem (.resp "mcq".toList [['x']] [])).points = 1 ↔
        (([['x']] : List Str) : Multiset Str) = ((c8WItem.correct : List Str) : Multiset Str)) ∧
      ((gradeItem c8WItem (.resp "mcq".toList [['x']] [])).points = 1 ∨
        (gradeItem c8WItem (.resp "mcq".toList [['x']] [])).points = 0) :=
  c8_mcq_exact_match c8WItem (.resp "mcq".toList [['x']] []) rfl
    (by decide) (by decide)

/-- `Map.set` then `get`: the written key reads back, others are
untouched. -/
theorem getKey_setKey (m : Answered) (k k' : Str) (v : Answer) :
    getKey (setKey m k v) k' = if k' = k then some v else getKey m k' := by
  induction m with
  | nil =>
    simp only [setKey, getKey]
    by_cases h : k = k'
    · rw [if_pos h, if_pos h.symm]
    · rw [if_neg h, if_neg (Ne.symm h)]
  | cons p rest ih =>
    simp only [setKey]
    by_cases hp : p.1 = k
    · rw [if_pos hp]
      simp only [getKey]
      by_cases h : k = k'
      · rw [if_pos h, if_pos h.symm]
      · rw [if_neg h, if_neg (Ne.symm h), if_neg (by rw [hp]; exact h)]
    · rw [if_neg hp]
      simp only [getKey]
      by_cases h : p.1 = k'
      · rw [if_pos h, if_pos h, if_neg fun hc => hp (h.trans hc)]
      · rw [if_neg h, if_neg h, ih]

/-- `computeTotals` reads the answer map only at quiz item ids. -/
theorem computeTotals_congr (q : Quiz) (a a' : Answered)
    (h : ∀ it ∈ q.items, getKey a' it.id = getKey a it.id) :
    computeTotals q a' = computeTotals q a := by
  unfold computeTotals
  have hfold : ∀ (items : List Item), (∀ it ∈ items, getKey a' it.id = getKey a it.id) →
      ∀ acc, items.foldl (totalsAcc a') acc = items.foldl (totalsAcc a) acc := by
    intro items
    induction items with
    | nil => intro _ acc; rfl
    | cons it rest ih =>
      intro hmem acc
      simp only [List.foldl_cons]
      rw [show totalsAcc a' acc it = totalsAcc a acc it by
        unfold totalsAcc
        rw [hmem it (by simp)]]
      exact ih (fun j hj => hmem j (List.mem_cons_of_mem _ hj)) _
  rw [hfold q.items h]

/-- C2: `submitAttemptNow` is re-entrant-safe and idempotent — nothing is
dispatched while `submitting` or after `submittedOnce`; HTTP success and the
409 duplicate conflict both set the sticky `submittedOnce` flag and reach
the terminal thanks outcome; any other failure clears `submitting`, leaves
`submittedOnce` false, offers a retry, and changes no item answer and no
totals. -/
theorem c2_submitAttemptNow_idempotent (q : Quiz) (cs : CoverageState) (sub : SubState)
    (answered : Answered) (viewer : Str) (now dur : ℚ) :
    (∀ resp, sub.submitting = true ∨ sub.submittedOnce = true →
      submitAttemptNow q cs sub answered viewer now dur resp =
        (sub, answered, .noDispatch)) ∧
    (sub.submitting = false → sub.submittedOnce = false →
      ∀ resp, resp = .ok ∨ resp = .conflict409 →
        (submitAttemptNow q cs sub answered viewer now dur resp).1.submittedOnce = true ∧
          (submitAttemptNow q cs sub answered viewer now dur resp).2.2 = .thanks) ∧
    (sub.submitting = false → sub.submittedOnce = false →
      (submitAttemptNow q cs sub answered viewer now dur .fail).1.submitting = false ∧
        (submitAttemptNow q cs sub answered viewer now dur .fail).1.submittedOnce = false ∧
        (submitAttemptNow q cs sub answered viewer now dur .fail).2.2 = .retry ∧
        (∀ k, k ≠ idKey → k ≠ metaKey →
          getKey (submitAttemptNow q cs sub answered viewer now dur .fail).2.1 k =
            getKey answered k) ∧
        ((∀ it ∈ q.items, it.id ≠ idKey ∧ it.id ≠ metaKey) →
          computeTotals q (submitAttemptNow q cs sub answered viewer now dur .fail).2.1 =
            computeTotals q answered)) := by
  refine ⟨?_, ?_, ?_⟩
  · intro resp hguard
    have hcond : (sub.submitting || sub.submittedOnce) = true := by
      rcases hguard with h | h <;> simp [h]
    simp [submitAttemptNow, hcond]
  · intro h1 h2 resp hresp
    rcases hresp with rfl | rfl <;> simp [submitAttemptNow, h1, h2]
  · intro h1 h2
    have hkeys : ∀ k, k ≠ idKey → k ≠ metaKey →
        getKey (submitAttemptNow q cs sub answered viewer now dur .fail).2.1 k =
          getKey answered k := by
      intro k hk1 hk2
      simp only [submitAttemptNow, h1, h2, Bool.or_self, Bool.false_eq_true, if_neg,
        not_false_eq_true]
      rw [getKey_setKey, if_neg hk2, getKey_setKey, if_neg hk1]
    refine ⟨by simp [submitAttemptNow, h1, h2], by simp [submitAttemptNow, h1, h2],
      by simp [submitAttemptNow, h1, h2], hkeys, ?_⟩
    intro hids
    exact computeTotals_congr q answered _
      (fun it hit => hkeys it.id (hids it hit).1 (hids it hit).2)

/-- The quiz used by the C2 witness. -/
def c2Quiz : Quiz := ⟨[c3Item], none, true, true, false, false, 0⟩

/-- Witness for C2: with the guard flag up nothing is dispatched; from a
clean state a 409 conflict is terminal success and a failure yields a
retry. -/
theorem c2_witness :
    submitAttemptNow c2Quiz ⟨[], false, 0⟩ ⟨true, false⟩ [] [] 0 0 .ok =
        (⟨true, false⟩, [], .noDispatch) ∧
      (submitAttemptNow c2Quiz ⟨[], false, 0⟩ ⟨false, false⟩ [] [] 0 0
          .conflict409).1.submittedOnce = true ∧
      (submitAttemptNow c2Quiz ⟨[], false, 0⟩ ⟨false, false⟩ [] [] 0 0 .fail).2.2 =
        .retry :=
  ⟨(c2_submitAttemptNow_idempotent c2Quiz ⟨[], false, 0⟩ ⟨true, false⟩ [] [] 0 0).1 .ok
      (Or.inl rfl),
    ((c2_submitAttemptNow_idempotent c2Quiz ⟨[], false, 0⟩ ⟨false, false⟩ [] [] 0 0).2.1
      rfl rfl .conflict409 (Or.inr rfl)).1,
    ((c2_submitAttemptNow_idempotent c2Quiz ⟨[], false, 0⟩ ⟨false, false⟩ [] [] 0 0).2.2
      rfl rfl).2.2.1⟩

/-- Nothing after the seek guard touches `warnedSeekOnce`, and no later
branch emits a rewind. -/
theorem tickMain_preserves_warned (q : Quiz) (st : EngState) (cs : CoverageState)
    (peakTime now dur : ℚ) :
    (tickMain q st cs peakTime now dur).1.warnedSeekOnce = st.warnedSeekOnce ∧
      ∀ t', (tickMain q st cs peakTime now dur).2 ≠ .seekBounce t' := by
  constructor
  · simp only [tickMain]
    repeat' split
    all_goals rfl
  · intro t'
    simp only [tickMain]
    repeat' split
    all_goals simp

/-- A quiz with no items and all options off, for the seek-guard
counterexample. -/
def c4Quiz : Quiz := ⟨[], none, false, false, false, false, 0⟩

/-- A fresh engine state: nothing watched, no overlay, no warning yet. -/
def c4State : EngState :=
  ⟨⟨[], false, 0⟩, false, none, false, [], [], 0, false, 0, 0, false, ⟨false, false⟩⟩

/-- C4 counterexample: at `now = 1.5` from `lastNow = 0` the position jumped
forward by more than 1.25 seconds — a forward jump per the claim — with no
overlay open and no prior warning, yet the tick performs no corrective
rewind and leaves `warnedSeekOnce` false: the rewind threshold in the code
is 2.0 seconds, not the 1.25-second forward-jump bound. -/
theorem c4_counterexample :
    c4State.lastNow + 5/4 < (3/2 : ℚ) ∧ c4State.warnedSeekOnce = false ∧
      c4State.overlayOpen = false ∧
      (tick c4Quiz c4State (3/2) 0 true).2 = .none ∧
      (tick c4Quiz c4State (3/2) 0 true).1.warnedSeekOnce = false := by
  refine ⟨by norm_num [c4State], rfl, rfl, ?_, ?_⟩ <;>
    norm_num [tick, tickMain, c4State, c4Quiz, nextGateTimeAfter, maybeTrigger,
      maybeTriggerGo, effectiveEnd, startWatch, stopWatch, addSegment, top_add,
      not_top_lt]

/-- C4 (amended): the one-time corrective rewind triggers on the first jump
with `now > lastNow + 2.0` (a stricter bound than the 1.25-second forward
jump) observed with no overlay open: it seeks back to `lastNow`, sets
`warnedSeekOnce`, and skips the rest of the tick (`lastNow`, review state
and the answer map are untouched); once `warnedSeekOnce` is set, no tick
ever rewinds again or clears the flag, so the rewind fires at most once per
session. -/
theorem c4_seek_guard_once :
    (∀ (q : Quiz) (st : EngState) (now dur : ℚ) (playing : Bool),
        st.warnedSeekOnce = false → st.overlayOpen = false → st.lastNow + 2 < now →
        (tick q st now dur playing).2 = .seekBounce (max 0 st.lastNow) ∧
          (tick q st now dur playing).1.warnedSeekOnce = true ∧
          (tick q st now dur playing).1.lastNow = st.lastNow ∧
          (tick q st now dur playing).1.reviewMode = st.reviewMode ∧
          (tick q st now dur playing).1.answered = st.answered) ∧
      ∀ (q : Quiz) (st : EngState) (now dur : ℚ) (playing : Bool),
        st.warnedSeekOnce = true →
        (tick q st now dur playing).1.warnedSeekOnce = true ∧
          ∀ t', (tick q st now dur playing).2 ≠ .seekBounce t' := by
  constructor
  · intro q st now dur playing h1 h2 h3
    simp only [tick, if_pos (And.intro h1 (And.intro h3 h2))]
    exact ⟨trivial, trivial, trivial, trivial, trivial⟩
  · intro q st now dur playing h1
    have hcond : ¬ (st.warnedSeekOnce = false ∧ st.lastNow + 2 < now ∧
        st.overlayOpen = false) := by
      rintro ⟨hc, _, _⟩
      rw [h1] at hc
      cases hc
    constructor
    · simp only [tick, if_neg hcond]
      rw [(tickMain_preserves_warned q st _ _ now dur).1]
      exact h1
    · intro t'
      simp only [tick, if_neg hcond]
      exact (tickMain_preserves_warned q st _ _ now dur).2 t'

/-- Witness for C4 (amended): a concrete 3-second jump from a fresh state
rewinds to `lastNow` and raises the flag; a state with the flag already
raised never rewinds. -/
theorem c4_witness :
    ((tick c4Quiz c4State 3 0 true).2 = .seekBounce (max 0 c4State.lastNow) ∧
        (tick c4Quiz c4State 3 0 true).1.warnedSeekOnce = true) ∧
      ∀ t', (tick c4Quiz (tick c4Quiz c4State 3 0 true).1 4 0 true).2 ≠ .seekBounce t' :=
  ⟨⟨(c4_seek_guard_once.1 c4Quiz c4State 3 0 true rfl rfl (by norm_num [c4State])).1,
      (c4_seek_guard_once.1 c4Quiz c4State 3 0 true rfl rfl (by norm_num [c4State])).2.1⟩,
    (c4_seek_guard_once.2 c4Quiz (tick c4Quiz c4State 3 0 true).1 4 0 true
      (c4_seek_guard_once.1 c4Quiz c4State 3 0 true rfl rfl
        (by norm_num [c4State])).2.1).2⟩

/-- `answered.has(k)` is `get`-success. -/
theorem hasKey_eq_isSome (m : Answered) (k : Str) : hasKey m k = (getKey m k).isSome := by
  induction m with
  | nil => rfl
  | cons p rest ih =>
    simp only [hasKey, List.any_cons, getKey]
    by_cases h : p.1 = k
    · simp [h]
    · simp only [h, decide_eq_false h, Bool.false_or, if_neg h]
      exact ih

/-- C10: pressing Continue on a pause item with no stored answer records a
`kind 'pause'` answer for it and marks it reviewed, so afterwards the item
is in the answered map and `maybeTrigger` never re-opens it outside review
mode. -/
theorem c10_handleContinue_pause (it : Item) (answered : Answered) (rp : List Str)
    (htype : it.type = .pause) (hna : hasKey answered it.id = false) (hid : it.id ≠ []) :
    getKey (handleContinue (some it) answered rp).1 it.id = some .pauseCont ∧
      Answer.kind .pauseCont = "pause".toList ∧
      it.id ∈ (handleContinue (some it) answered rp).2 ∧
      ∀ (q : Quiz) (rm : Bool) (rp' : List Str) (now : ℚ),
        (q.reviewOnRewatch && rm) = false →
        ∀ jt rev,
          (maybeTrigger q (handleContinue (some it) answered rp).1 rm rp' now).1 =
            some (jt, rev) → jt.id ≠ it.id := by
  have ha : (handleContinue (some it) answered rp).1 = setKey answered it.id .pauseCont := by
    simp [handleContinue, htype, hna]
  have hrp : (handleContinue (some it) answered rp).2 = List.insert it.id rp := by
    simp [handleContinue, hid]
  refine ⟨?_, rfl, ?_, ?_⟩
  · rw [ha, getKey_setKey, if_pos rfl]
  · rw [hrp]
    exact List.mem_insert_self _ _
  · intro q rm rp' now hrev jt rev hjt hc
    have hjkey : hasKey (handleContinue (some it) answered rp).1 jt.id = true := by
      rw [hc, ha, hasKey_eq_isSome, getKey_setKey, if_pos rfl]
      rfl
    simp only [maybeTrigger] at hjt
    have hsafe := (maybeTriggerGo_spec (q.reviewOnRewatch && rm)
      (handleContinue (some it) answered rp).1 now q.items rp').2 jt rev hjt hjkey
    rw [hrev] at hsafe
    exact Bool.false_ne_true hsafe.1

/-- The pause item of the C10 witness. -/
def c10Item : Item := ⟨['p'], .pause, 2, [], [], false⟩

/-- Witness for C10: continuing past a concrete unanswered pause item stores
the pause answer and marks the item reviewed. -/
theorem c10_witness :
    getKey (handleContinue (some c10Item) [] []).1 c10Item.id = some .pauseCont ∧
      c10Item.id ∈ (handleContinue (some c10Item) [] []).2 :=
  ⟨(c10_handleContinue_pause c10Item [] [] rfl rfl (by decide)).1,
    (c10_handleContinue_pause c10Item [] [] rfl rfl (by decide)).2.2.1⟩

end VideoMcq
